import Mathlib

/-!
Shallow embedding of the proof-of-work ledger simulator in `src/main.rs`
(crate `BMS`): the `Transaction`, `Block` and `Blockchain` data model with
the mining loop, transaction admission, balance bookkeeping, reward
halving and the chain-validity predicate.

Modelling conventions:
* `f64` amounts and balances are modelled as exact rationals (`ℚ`); every
  amount appearing in the spec (100, 50, 25, 10, …) is exactly
  representable in `f64`, and halving by 2 is exact in both worlds.
* SHA-256 together with the `format!("{}{}{:?}{}{}", …)` serialization of
  `Block::calculate_hash` (lines 47-52) comes from external crates
  (`sha2`, `core::fmt`); it is modelled as an oracle parameter
  `cH : Nat → Int → List Transaction → String → Nat → String` applied to
  exactly the five hashed fields `(index, timestamp, transactions,
  previous_hash, nonce)`.
* `Utc::now().timestamp()` (crate `chrono`) and `rand::thread_rng().gen::<u64>()`
  (crate `rand`) are likewise external; each call site takes the drawn
  value as an explicit argument (`ts : Int`, `r : Nat` with `r % 2^64`).
* The unbounded `while` loop of `Block::mine` (lines 54-61) is given an
  explicit fuel argument; running out of fuel yields `none` (the Rust
  loop would still be searching).  `u32` arithmetic is modelled on `Nat`
  with explicit `% 2^32` at the increment and cast sites.
* `HashMap<String, f64>` is modelled as an association list with
  first-occurrence lookup and in-place replacing insert.
* The `unwrap()` on `chain.last()` (line 122), which would panic on an
  empty chain, is modelled as returning `none`; every state constructed
  through the public interface has a genesis block, so this branch is
  unreachable there.
-/

/-- Constant `const DIFFICULTY: usize = 4` (line 6). -/
def DIFFICULTY : Nat := 4

/-- Constant `const MINING_REWARD: f64 = 100.0` (line 7). -/
def MINING_REWARD : ℚ := 100

/-- Constant `const HALVING_INTERVAL: u32 = 10` (line 8). -/
def HALVING_INTERVAL : Nat := 10

/-- Model of `struct Transaction` (lines 10-15). -/
structure Transaction where
  «from» : String
  «to» : String
  amount : ℚ
deriving DecidableEq, Inhabited

/-- Model of `struct Block` (lines 23-31).  `index` and `nonce` are `u32` in the
source; they are kept as `Nat`, with `% 2^32` applied where the source
casts or increments. -/
structure Block where
  index : Nat
  timestamp : Int
  transactions : List Transaction
  previous_hash : String
  hash : String
  nonce : Nat
deriving DecidableEq, Inhabited

/-- The proof-of-work target `"0".repeat(DIFFICULTY)` (line 55). -/
def difficultyTarget : String := String.mk (List.replicate DIFFICULTY '0')

/-- Rust's `str::starts_with` on the character level (Lean's own
`String.startsWith` works on byte positions and does not reduce in the
kernel, so the check is modelled on the underlying character lists). -/
def strStartsWith (s pre : String) : Bool :=
  List.isPrefixOf pre.data s.data

/-- Model of `Block::calculate_hash` (lines 47-52): the oracle `cH` stands for
SHA-256 composed with the `format!` serialization of the five fields. -/
def calculateHash (cH : Nat → Int → List Transaction → String → Nat → String)
    (b : Block) : String :=
  cH b.index b.timestamp b.transactions b.previous_hash b.nonce

/-- The `while` loop of `Block::mine` (lines 56-59): while the current
hash does not start with the target, increment the nonce (a `u32`, hence
the `% 2^32`) and recompute the hash of the block with that nonce.
`hashOf n` is the hash of the block's fixed fields with nonce `n`.
The loop carries the pair (current nonce, current hash); `fuel` bounds
the number of checks, `none` meaning the Rust loop is still running. -/
def mineLoop (hashOf : Nat → String) (target : String) :
    Nat → Nat → String → Option (Nat × String)
  | 0, _, _ => none
  | fuel + 1, nonce, hsh =>
    if strStartsWith hsh target then some (nonce, hsh)
    else
      let nonce2 := (nonce + 1) % 2 ^ 32
      mineLoop hashOf target fuel nonce2 (hashOf nonce2)

/-- Model of `Block::new` (lines 34-45): the block starts with `nonce = 0` and an
empty hash string, fixes `timestamp` once (taken here as the argument
`ts`, the value `Utc::now().timestamp()` returned), and is mined in the
same step. -/
def Block.new (cH : Nat → Int → List Transaction → String → Nat → String)
    (index : Nat) (transactions : List Transaction) (previous_hash : String)
    (ts : Int) (fuel : Nat) : Option Block :=
  match mineLoop (fun n => cH index ts transactions previous_hash n)
      difficultyTarget fuel 0 "" with
  | none => none
  | some (n, h) =>
    some { index := index, timestamp := ts, transactions := transactions,
           previous_hash := previous_hash, hash := h, nonce := n }

/-- First-occurrence lookup in the association-list model of
`HashMap<String, f64>` (`wallets.get`). -/
def hmFind : List (String × ℚ) → String → Option ℚ
  | [], _ => none
  | (k, v) :: rest, a => if k = a then some v else hmFind rest a

/-- Replacing insert in the association-list model of
`HashMap<String, f64>` (`wallets.insert`). -/
def hmInsert : List (String × ℚ) → String → ℚ → List (String × ℚ)
  | [], a, v => [(a, v)]
  | (k, w) :: rest, a, v =>
    if k = a then (a, v) :: rest else (k, w) :: hmInsert rest a v

/-- Model of `*self.wallets.entry(a).or_insert(0.0) += d` (lines 111, 113, 126):
read the entry, defaulting to `0.0`, and store it increased by `d`
(`d` is negated at the debit site). -/
def entryAdd (m : List (String × ℚ)) (a : String) (d : ℚ) : List (String × ℚ) :=
  hmInsert m a ((hmFind m a).getD 0 + d)

/-- Model of `struct Blockchain` (lines 64-69). -/
structure Blockchain where
  chain : List Block
  pending_transactions : List Transaction
  wallets : List (String × ℚ)
  current_mining_reward : ℚ
deriving DecidableEq, Inhabited

/-- Model of `Blockchain::new` together with `create_genesis_block` (lines 72-86):
the fresh ledger holds exactly the mined genesis block
`Block::new(0, vec![], "0")`. -/
def Blockchain.new (cH : Nat → Int → List Transaction → String → Nat → String)
    (ts : Int) (fuel : Nat) : Option Blockchain :=
  match Block.new cH 0 [] "0" ts fuel with
  | none => none
  | some g =>
    some { chain := [g], pending_transactions := [], wallets := [],
           current_mining_reward := MINING_REWARD }

/-- The `{:x}` rendering of a `u64` (lowercase hex, no padding, `0 ↦ "0"`). -/
def u64ToHex (n : Nat) : String := String.mk (Nat.toDigits 16 n)

/-- Model of `Blockchain::create_wallet` (lines 88-92): `r` is the value drawn by
`rand::thread_rng().gen::<u64>()`; the address is `format!("0x{:x}", r)`
and is inserted with balance `0.0` (replacing any existing entry —
the source performs no freshness check). -/
def createWallet (s : Blockchain) (r : Nat) : Blockchain × String :=
  let address := "0x" ++ u64ToHex (r % 2 ^ 64)
  ({ s with wallets := hmInsert s.wallets address 0 }, address)

/-- Model of `Blockchain::get_balance` (lines 94-96). -/
def getBalance (s : Blockchain) (a : String) : ℚ :=
  (hmFind s.wallets a).getD 0

/-- Model of `Blockchain::add_transaction` (lines 98-104): reject iff the sender
is not the sentinel `"0"` and its recorded balance is below the amount;
otherwise push onto the pending queue. -/
def addTransaction (s : Blockchain) (t : Transaction) : Blockchain × Bool :=
  if t.«from» ≠ "0" ∧ getBalance s t.«from» < t.amount then (s, false)
  else
    ({ s with pending_transactions := s.pending_transactions ++ [t] }, true)

/-- The body of the balance-update loop of `mine_pending_transactions`
(lines 109-114): debit the sender unless it is the sentinel, credit the
recipient. -/
def applyTx (w : List (String × ℚ)) (t : Transaction) : List (String × ℚ) :=
  let w1 := if t.«from» ≠ "0" then entryAdd w t.«from» (-t.amount) else w
  entryAdd w1 t.«to» t.amount

/-- Model of `Blockchain::mine_pending_transactions` (lines 106-134): apply the
pending transactions to the balances, append the coinbase transaction,
mine the new block at `index = chain.len() as u32` on top of the last
block's hash, push it, credit the miner, clear the queue, and halve the
reward when `chain.len() as u32 % HALVING_INTERVAL == 0`. -/
def minePendingTransactions
    (cH : Nat → Int → List Transaction → String → Nat → String)
    (ts : Int) (fuel : Nat) (s : Blockchain) (miner : String) :
    Option Blockchain :=
  match s.chain.getLast? with
  | none => none
  | some lastBlock =>
    let transactions_to_mine := s.pending_transactions
    let wallets1 := transactions_to_mine.foldl applyTx s.wallets
    let reward_tx : Transaction :=
      { «from» := "0", «to» := miner, amount := s.current_mining_reward }
    let transactions_to_mine2 := transactions_to_mine ++ [reward_tx]
    match Block.new cH (s.chain.length % 2 ^ 32) transactions_to_mine2
        lastBlock.hash ts fuel with
    | none => none
    | some nb =>
      let chain2 := s.chain ++ [nb]
      let wallets2 := entryAdd wallets1 miner s.current_mining_reward
      let reward2 :=
        if chain2.length % 2 ^ 32 % HALVING_INTERVAL = 0 then
          s.current_mining_reward / 2
        else s.current_mining_reward
      some { chain := chain2, pending_transactions := [],
             wallets := wallets2, current_mining_reward := reward2 }

/-- The three per-block checks of `Blockchain::is_chain_valid`
(lines 141-151), in source order. -/
def blockChecks (cH : Nat → Int → List Transaction → String → Nat → String)
    (current previous : Block) : Bool :=
  (current.hash == calculateHash cH current) &&
  (current.previous_hash == previous.hash) &&
  strStartsWith current.hash difficultyTarget

/-- The loop `for i in 1..self.chain.len()` of `is_chain_valid`
(lines 137-152): all indexed checks must pass. -/
def chainCheck (cH : Nat → Int → List Transaction → String → Nat → String)
    (chain : List Block) : Bool :=
  (List.range' 1 (chain.length - 1)).all fun i =>
    blockChecks cH (chain.getD i default) (chain.getD (i - 1) default)

/-- Model of `Blockchain::is_chain_valid` (lines 136-154). -/
def isChainValid (cH : Nat → Int → List Transaction → String → Nat → String)
    (s : Blockchain) : Bool :=
  chainCheck cH s.chain

/-- Ledger states reachable through the public interface: construction
(`Blockchain::new`), `create_wallet`, `add_transaction` and a terminating
`mine_pending_transactions` call.  The oracle arguments `ts`, `r` and
`fuel` are arbitrary at every step. -/
inductive Reachable (cH : Nat → Int → List Transaction → String → Nat → String) :
    Blockchain → Prop where
  | init : ∀ ts fuel s, Blockchain.new cH ts fuel = some s → Reachable cH s
  | wallet : ∀ s r, Reachable cH s → Reachable cH (createWallet s r).1
  | tx : ∀ s t, Reachable cH s → Reachable cH (addTransaction s t).1
  | mine : ∀ s ts fuel m s2, Reachable cH s →
      minePendingTransactions cH ts fuel s m = some s2 → Reachable cH s2

/-- Sum of all recorded balances. -/
def sumVals (m : List (String × ℚ)) : ℚ := (m.map Prod.snd).sum

/-- Concrete hash oracle for witnesses and counterexamples: every hash
string is `"0000"`, which satisfies the difficulty predicate. -/
def cH0 : Nat → Int → List Transaction → String → Nat → String :=
  fun _ _ _ _ _ => "0000"

/-- The genesis block produced by `Blockchain.new cH0 0 2`. -/
def G0 : Block :=
  { index := 0, timestamp := 0, transactions := [], previous_hash := "0",
    hash := "0000", nonce := 1 }

/-- The fresh ledger produced by `Blockchain.new cH0 0 2`. -/
def B0 : Blockchain :=
  { chain := [G0], pending_transactions := [], wallets := [],
    current_mining_reward := 100 }

/-- State `B0` after one mining call (miner `"m"`). -/
def B1 : Blockchain :=
  (minePendingTransactions cH0 0 2 B0 "m").getD default

/-- A pending transaction with the sentinel sender (admissible through
`add_transaction`, see the admission check). -/
def tC6 : Transaction := { «from» := "0", «to» := "r", amount := 1 }

/-- State `B0` after admitting `tC6`. -/
def sC6 : Blockchain := (addTransaction B0 tC6).1

/-- State `sC6` after one mining call (miner `"m"`). -/
def sC6m : Blockchain := (minePendingTransactions cH0 0 2 sC6 "m").getD default

/-- State `B0` after one `create_wallet` call whose random `u64` is `0`,
registering the address `"0x0"`. -/
def sC8 : Blockchain := (createWallet B0 0).1

/-- A negative-amount transaction between two ordinary accounts. -/
def tP : Transaction := { «from» := "a", «to» := "b", amount := -1 }

/-- State `B0` after admitting `tP` and mining once (miner `"m"`). -/
def sPm : Blockchain :=
  (minePendingTransactions cH0 0 2 (addTransaction B0 tP).1 "m").getD default

/-- Runs `n` successive mining calls under `cH0` (miner `"m"`, fuel `2`). -/
def mineN : Nat → Blockchain → Option Blockchain
  | 0, s => some s
  | n + 1, s =>
    match minePendingTransactions cH0 0 2 s "m" with
    | none => none
    | some s2 => mineN n s2

/-- State `B0` after nine mining calls: ten blocks, reward just halved to 50. -/
def sTen : Blockchain := (mineN 9 B0).getD default

/-- State `B0` after ten mining calls. -/
def sEleven : Blockchain := (mineN 10 B0).getD default

/-! ### Wallet-map lemmas -/

/-- Lookup after a replacing insert. -/
lemma hmFind_hmInsert (m : List (String × ℚ)) (a : String) (v : ℚ) (b : String) :
    hmFind (hmInsert m a v) b = if a = b then some v else hmFind m b := by
  induction m with
  | nil => by_cases h : a = b <;> simp [hmInsert, hmFind, h]
  | cons p rest ih =>
    obtain ⟨k, w⟩ := p
    by_cases hk : k = a
    · subst hk
      by_cases h : k = b <;> simp [hmInsert, hmFind, h]
    · by_cases h : k = b
      · subst h
        have hab : ¬ a = k := fun hc => hk hc.symm
        simp [hmInsert, hmFind, hk, hab]
      · simp [hmInsert, hmFind, hk, h, ih]

/-- Lookup after an `entry(a).or_insert(0.0) += d` update. -/
lemma hmFind_entryAdd (m : List (String × ℚ)) (a : String) (d : ℚ) (b : String) :
    hmFind (entryAdd m a d) b =
      if a = b then some ((hmFind m a).getD 0 + d) else hmFind m b := by
  simp [entryAdd, hmFind_hmInsert]

/-- A replacing insert changes the balance sum by the difference between
the new and the replaced value. -/
lemma sumVals_hmInsert (m : List (String × ℚ)) (a : String) (v : ℚ) :
    sumVals (hmInsert m a v) = sumVals m + v - (hmFind m a).getD 0 := by
  induction m with
  | nil => simp [hmInsert, hmFind, sumVals]
  | cons p rest ih =>
    obtain ⟨k, w⟩ := p
    by_cases hk : k = a
    · subst hk
      simp [hmInsert, hmFind, sumVals]
      ring
    · simp only [hmInsert, hmFind, hk, if_false, sumVals, List.map_cons,
        List.sum_cons] at ih ⊢
      rw [ih]
      ring

/-- An `entry(a).or_insert(0.0) += d` update changes the balance sum by
exactly `d`. -/
lemma sumVals_entryAdd (m : List (String × ℚ)) (a : String) (d : ℚ) :
    sumVals (entryAdd m a d) = sumVals m + d := by
  rw [entryAdd, sumVals_hmInsert]
  ring

/-- One iteration of the balance-update loop creates value `amount` when
the sender is the sentinel and conserves the sum otherwise. -/
lemma sumVals_applyTx (w : List (String × ℚ)) (t : Transaction) :
    sumVals (applyTx w t) =
      sumVals w + (if t.«from» = "0" then t.amount else 0) := by
  by_cases h : t.«from» = "0"
  · simp [applyTx, h, sumVals_entryAdd]
  · simp only [applyTx, h, ne_eq, not_false_iff, if_true, if_false,
      sumVals_entryAdd, ite_false]
    ring

/-- Folding the balance-update loop over a transaction list. -/
lemma sumVals_foldl_applyTx (txs : List Transaction) (w : List (String × ℚ)) :
    sumVals (txs.foldl applyTx w) =
      sumVals w +
        (txs.map (fun t => if t.«from» = "0" then t.amount else 0)).sum := by
  induction txs generalizing w with
  | nil => simp
  | cons t rest ih =>
    simp only [List.foldl_cons, List.map_cons, List.sum_cons]
    rw [ih, sumVals_applyTx]
    ring

/-! ### Mining-loop lemmas -/

/-- If the mining loop returns, the returned hash either is the hash the
loop started with (which then already satisfied the target) or is the
hash of the returned nonce and satisfies the target. -/
lemma mineLoop_good (hashOf : Nat → String) (target : String) :
    ∀ (fuel nonce : Nat) (hsh : String) (N : Nat) (H : String),
      mineLoop hashOf target fuel nonce hsh = some (N, H) →
      (strStartsWith hsh target = true ∧ N = nonce ∧ H = hsh) ∨
      (H = hashOf N ∧ strStartsWith H target = true) := by
  intro fuel
  induction fuel with
  | zero => intro nonce hsh N H h; simp [mineLoop] at h
  | succ f ih =>
    intro nonce hsh N H h
    by_cases hs : strStartsWith hsh target
    · left
      simp [mineLoop, hs] at h
      exact ⟨hs, h.1.symm, h.2.symm⟩
    · right
      simp only [mineLoop, hs, if_false, Bool.false_eq_true] at h
      rcases ih _ _ _ _ h with ⟨h1, h2, h3⟩ | h'
      · exact ⟨h3.trans (by rw [h2]), h3 ▸ h1⟩
      · exact h'

/-- Starting from `nonce = 0` with the empty initial hash, a successful
mining loop returns the least nonce `≥ 1` whose hash satisfies the
target: nonce `0` itself is never attempted.  The bound
`fuel ≤ 2 ^ 32` keeps the `u32` nonce from wrapping. -/
lemma mineLoop_first_aux (hashOf : Nat → String) (target : String) :
    ∀ (fuel n N : Nat) (H : String), 1 ≤ n → n + fuel ≤ 2 ^ 32 →
      mineLoop hashOf target fuel n (hashOf n) = some (N, H) →
      n ≤ N ∧ H = hashOf N ∧ strStartsWith H target = true ∧
        ∀ m, n ≤ m → m < N → strStartsWith (hashOf m) target = false := by
  intro fuel
  induction fuel with
  | zero => intro n N H _ _ h; simp [mineLoop] at h
  | succ f ih =>
    intro n N H hn hbound h
    by_cases hs : strStartsWith (hashOf n) target
    · simp [mineLoop, hs] at h
      obtain ⟨h1, h2⟩ := h
      subst h1
      subst h2
      exact ⟨le_refl n, rfl, hs, fun m hm1 hm2 => absurd hm1 (by omega)⟩
    · simp only [mineLoop, hs, if_false, Bool.false_eq_true] at h
      have hlt : n + 1 < 2 ^ 32 ∨ n + 1 = 2 ^ 32 := by omega
      rcases hlt with hlt | heq
      · rw [Nat.mod_eq_of_lt hlt] at h
        have := ih (n + 1) N H (by omega) (by omega) h
        obtain ⟨g1, g2, g3, g4⟩ := this
        refine ⟨by omega, g2, g3, ?_⟩
        intro m hm1 hm2
        by_cases hmn : m = n
        · subst hmn
          exact Bool.not_eq_true _ ▸ (by simpa using hs)
        · exact g4 m (by omega) hm2
      · have hf : f = 0 := by omega
        subst hf
        simp [mineLoop] at h

/-- The top-level run of `Block::mine`'s loop: the initial hash is the
empty string, which does not satisfy a nonempty target, so the first
nonce attempted is `1`. -/
lemma mineLoop_first (hashOf : Nat → String) (target : String)
    (hemp : strStartsWith "" target = false) :
    ∀ (fuel N : Nat) (H : String), fuel ≤ 2 ^ 32 →
      mineLoop hashOf target fuel 0 "" = some (N, H) →
      1 ≤ N ∧ H = hashOf N ∧ strStartsWith H target = true ∧
        ∀ m, 1 ≤ m → m < N → strStartsWith (hashOf m) target = false := by
  intro fuel N H hbound h
  cases fuel with
  | zero => simp [mineLoop] at h
  | succ f =>
    simp only [mineLoop, hemp, if_false, Bool.false_eq_true] at h
    have h1 : (0 + 1) % 2 ^ 32 = 1 := by norm_num
    rw [h1] at h
    exact mineLoop_first_aux hashOf target f 1 N H (le_refl 1) (by omega) h

/-! ### Structural lemmas for `Block.new` and `mine_pending_transactions` -/

/-- The fields of a successfully mined block. -/
lemma block_new_some (cH : Nat → Int → List Transaction → String → Nat → String)
    (index : Nat) (txs : List Transaction) (prev : String) (ts : Int)
    (fuel : Nat) (b : Block) (h : Block.new cH index txs prev ts fuel = some b) :
    b.index = index ∧ b.timestamp = ts ∧ b.transactions = txs ∧
      b.previous_hash = prev ∧
      mineLoop (fun n => cH index ts txs prev n) difficultyTarget fuel 0 ""
        = some (b.nonce, b.hash) := by
  unfold Block.new at h
  rcases hm : mineLoop (fun n => cH index ts txs prev n) difficultyTarget
      fuel 0 "" with _ | ⟨N, H⟩ <;> rw [hm] at h
  · exact absurd h (by simp)
  · simp only [Option.some.injEq] at h
    subst h
    exact ⟨rfl, rfl, rfl, rfl, rfl⟩

/-- The empty string does not satisfy the difficulty target. -/
lemma emp_not_target : strStartsWith "" difficultyTarget = false := by decide

/-- A successfully mined block is self-consistent: its stored hash is
the hash of its own stored fields and satisfies the difficulty
predicate. -/
lemma block_new_good (cH : Nat → Int → List Transaction → String → Nat → String)
    (index : Nat) (txs : List Transaction) (prev : String) (ts : Int)
    (fuel : Nat) (b : Block) (h : Block.new cH index txs prev ts fuel = some b) :
    b.hash = calculateHash cH b ∧
      strStartsWith b.hash difficultyTarget = true := by
  obtain ⟨h1, h2, h3, h4, h5⟩ := block_new_some cH index txs prev ts fuel b h
  rcases mineLoop_good _ _ _ _ _ _ _ h5 with ⟨he, _, hh⟩ | ⟨hh, hs⟩
  · rw [emp_not_target] at he
    cases he
  · constructor
    · rw [hh, calculateHash, h1, h2, h3, h4]
    · exact hs

/-- Unfolding a successful `mine_pending_transactions` call into its
effects on every field of the ledger. -/
lemma minePending_some
    (cH : Nat → Int → List Transaction → String → Nat → String)
    (ts : Int) (fuel : Nat) (s : Blockchain) (m : String) (s2 : Blockchain)
    (h : minePendingTransactions cH ts fuel s m = some s2) :
    ∃ lb nb, s.chain.getLast? = some lb ∧
      Block.new cH (s.chain.length % 2 ^ 32)
        (s.pending_transactions ++
          [{ «from» := "0", «to» := m, amount := s.current_mining_reward }])
        lb.hash ts fuel = some nb ∧
      s2 = { chain := s.chain ++ [nb],
             pending_transactions := [],
             wallets := entryAdd (s.pending_transactions.foldl applyTx s.wallets)
               m s.current_mining_reward,
             current_mining_reward :=
               if (s.chain.length + 1) % 2 ^ 32 % HALVING_INTERVAL = 0 then
                 s.current_mining_reward / 2
               else s.current_mining_reward } := by
  unfold minePendingTransactions at h
  rcases hl : s.chain.getLast? with _ | lb
  · rw [hl] at h
    exact absurd h (by simp)
  · rw [hl] at h
    have h2 : (match Block.new cH (s.chain.length % 2 ^ 32)
        (s.pending_transactions ++
          [{ «from» := "0", «to» := m, amount := s.current_mining_reward }])
        lb.hash ts fuel with
      | none => (none : Option Blockchain)
      | some nb =>
        some { chain := s.chain ++ [nb], pending_transactions := [],
               wallets :=
                 entryAdd (s.pending_transactions.foldl applyTx s.wallets)
                   m s.current_mining_reward,
               current_mining_reward :=
                 if (s.chain ++ [nb]).length % 2 ^ 32 % HALVING_INTERVAL = 0
                 then s.current_mining_reward / 2
                 else s.current_mining_reward }) = some s2 := h
    rcases hb : Block.new cH (s.chain.length % 2 ^ 32)
        (s.pending_transactions ++
          [{ «from» := "0", «to» := m, amount := s.current_mining_reward }])
        lb.hash ts fuel with _ | nb
    · rw [hb] at h2
      exact absurd h2 (by simp)
    · rw [hb] at h2
      simp only [Option.some.injEq] at h2
      refine ⟨lb, nb, rfl, hb, ?_⟩
      rw [← h2]
      have hlen : (s.chain ++ [nb]).length = s.chain.length + 1 := by
        simp
      rw [hlen]

/-! ### Chain-validity lemmas -/

/-- The loop of `is_chain_valid` as an indexed statement: it succeeds iff
every block from index `1` onward passes the three checks against its
predecessor. -/
lemma chainCheck_iff (cH : Nat → Int → List Transaction → String → Nat → String)
    (chain : List Block) :
    chainCheck cH chain = true ↔
      ∀ i, 1 ≤ i → i < chain.length →
        ((chain.getD i default).hash = calculateHash cH (chain.getD i default) ∧
         (chain.getD i default).previous_hash =
           (chain.getD (i - 1) default).hash ∧
         strStartsWith (chain.getD i default).hash difficultyTarget = true) := by
  unfold chainCheck
  rw [List.all_eq_true]
  constructor
  · intro h i h1 h2
    have hmem : i ∈ List.range' 1 (chain.length - 1) := by
      rw [List.mem_range'_1]
      omega
    have := h i hmem
    simp only [blockChecks, Bool.and_eq_true, beq_iff_eq] at this
    exact ⟨this.1.1, this.1.2, this.2⟩
  · intro h i hmem
    rw [List.mem_range'_1] at hmem
    have := h i hmem.1 (by omega)
    simp only [blockChecks, Bool.and_eq_true, beq_iff_eq]
    exact ⟨⟨this.1, this.2.1⟩, this.2.2⟩

/-- Appending a self-consistent block linked to the last block of a
valid chain keeps the chain valid. -/
lemma chainCheck_append
    (cH : Nat → Int → List Transaction → String → Nat → String)
    (c : List Block) (b lb : Block)
    (hv : chainCheck cH c = true) (hlast : c.getLast? = some lb)
    (hb1 : b.hash = calculateHash cH b) (hb2 : b.previous_hash = lb.hash)
    (hb3 : strStartsWith b.hash difficultyTarget = true) :
    chainCheck cH (c ++ [b]) = true := by
  have hne : c ≠ [] := by
    intro hc
    rw [hc] at hlast
    exact absurd hlast (by simp)
  have hcl : 1 ≤ c.length := by
    cases c with
    | nil => exact absurd rfl hne
    | cons x xs => simp
  rw [chainCheck_iff] at hv ⊢
  intro i h1 h2
  simp only [List.length_append, List.length_cons, List.length_nil] at h2
  by_cases hi : i < c.length
  · have e1 : (c ++ [b]).getD i default = c.getD i default := by
      rw [List.getD_eq_getElem?_getD, List.getD_eq_getElem?_getD,
        List.getElem?_append]
      simp [hi]
    have e2 : (c ++ [b]).getD (i - 1) default = c.getD (i - 1) default := by
      rw [List.getD_eq_getElem?_getD, List.getD_eq_getElem?_getD,
        List.getElem?_append]
      simp [show i - 1 < c.length by omega]
    rw [e1, e2]
    exact hv i h1 hi
  · have hi2 : i = c.length := by omega
    subst hi2
    have e1 : (c ++ [b]).getD c.length default = b := by
      rw [List.getD_eq_getElem?_getD, List.getElem?_concat_length]
      rfl
    have e2 : (c ++ [b]).getD (c.length - 1) default = lb := by
      rw [List.getD_eq_getElem?_getD, List.getElem?_append]
      simp only [show c.length - 1 < c.length by omega, if_true]
      rw [List.getLast?_eq_getElem?] at hlast
      rw [hlast]
      rfl
    rw [e1, e2]
    exact ⟨hb1, hb2, hb3⟩

/-- Invariant of every reachable ledger state: the chain is nonempty and
passes `is_chain_valid`'s checks. -/
lemma reachable_chain_inv
    (cH : Nat → Int → List Transaction → String → Nat → String)
    (s : Blockchain) (h : Reachable cH s) :
    s.chain ≠ [] ∧ chainCheck cH s.chain = true := by
  induction h with
  | init ts fuel s hnew =>
    unfold Blockchain.new at hnew
    rcases hg : Block.new cH 0 [] "0" ts fuel with _ | g <;> rw [hg] at hnew
    · exact absurd hnew (by simp)
    · simp only [Option.some.injEq] at hnew
      subst hnew
      constructor
      · simp
      · rw [chainCheck_iff]
        intro i h1 h2
        simp only [List.length_cons, List.length_nil] at h2
        omega
  | wallet s r _ ih => exact ih
  | tx s t _ ih =>
    have hchain : (addTransaction s t).1.chain = s.chain := by
      unfold addTransaction
      split <;> rfl
    rw [hchain]
    exact ih
  | mine s ts fuel m s2 _ hm ih =>
    obtain ⟨lb, nb, hl, hb, hs2⟩ := minePending_some cH ts fuel s m s2 hm
    obtain ⟨hg1, hg2⟩ := block_new_good cH _ _ _ _ _ _ hb
    obtain ⟨_, _, _, hprev, _⟩ := block_new_some cH _ _ _ _ _ _ hb
    subst hs2
    constructor
    · simp
    · exact chainCheck_append cH s.chain nb lb ih.2 hl hg1 hprev hg2

/-! ### Reward invariant -/

/-- The operation `add_transaction` only ever touches the pending queue. -/
lemma addTransaction_fst (s : Blockchain) (t : Transaction) :
    (addTransaction s t).1.chain = s.chain ∧
      (addTransaction s t).1.wallets = s.wallets ∧
      (addTransaction s t).1.current_mining_reward =
        s.current_mining_reward := by
  unfold addTransaction
  split <;> exact ⟨rfl, rfl, rfl⟩

/-- In every reachable state whose chain still fits a `u32` index, the
current reward is the initial reward halved once for every full halving
interval of chain length. -/
lemma reachable_reward
    (cH : Nat → Int → List Transaction → String → Nat → String)
    (s : Blockchain) (h : Reachable cH s) :
    s.chain.length < 2 ^ 32 →
    s.current_mining_reward =
      MINING_REWARD / 2 ^ (s.chain.length / HALVING_INTERVAL) := by
  induction h with
  | init ts fuel s hnew =>
    intro _
    unfold Blockchain.new at hnew
    rcases hg : Block.new cH 0 [] "0" ts fuel with _ | g <;> rw [hg] at hnew
    · exact absurd hnew (by simp)
    · simp only [Option.some.injEq] at hnew
      subst hnew
      simp [HALVING_INTERVAL]
  | wallet s r _ ih => intro hl; exact ih hl
  | tx s t _ ih =>
    intro hl
    obtain ⟨hc, _, hr⟩ := addTransaction_fst s t
    rw [hc] at hl
    rw [hc, hr]
    exact ih hl
  | mine s ts fuel m s2 _ hm ih =>
    intro hl2
    obtain ⟨lb, nb, hlast, hb, hs2⟩ := minePending_some cH ts fuel s m s2 hm
    have hlen : s2.chain.length = s.chain.length + 1 := by
      rw [hs2]
      simp
    have hrew : s2.current_mining_reward =
        if (s.chain.length + 1) % 2 ^ 32 % HALVING_INTERVAL = 0 then
          s.current_mining_reward / 2
        else s.current_mining_reward := by
      rw [hs2]
    rw [hlen] at hl2
    have hmod : (s.chain.length + 1) % 2 ^ 32 = s.chain.length + 1 :=
      Nat.mod_eq_of_lt hl2
    have hr := ih (by omega)
    rw [hrew, hlen, hmod, hr]
    by_cases h10 : (s.chain.length + 1) % HALVING_INTERVAL = 0
    · rw [if_pos h10]
      have hdiv : (s.chain.length + 1) / HALVING_INTERVAL =
          s.chain.length / HALVING_INTERVAL + 1 := by
        unfold HALVING_INTERVAL at h10 ⊢
        omega
      rw [hdiv, pow_succ, ← div_div]
    · rw [if_neg h10]
      have hdiv : (s.chain.length + 1) / HALVING_INTERVAL =
          s.chain.length / HALVING_INTERVAL := by
        unfold HALVING_INTERVAL at h10 ⊢
        omega
      rw [hdiv]

/-! ### Reachability of the concrete test states -/

/-- The fresh ledger `B0` is reachable (it is `Blockchain.new cH0 0 2`). -/
lemma reachable_B0 : Reachable cH0 B0 := Reachable.init 0 2 B0 rfl

/-- State `B1` is reachable: mine once from `B0`. -/
lemma reachable_B1 : Reachable cH0 B1 :=
  Reachable.mine B0 0 2 "m" B1 reachable_B0 rfl

/-- Iterated mining preserves reachability. -/
lemma mineN_reachable : ∀ (n : Nat) (s s2 : Blockchain), Reachable cH0 s →
    mineN n s = some s2 → Reachable cH0 s2 := by
  intro n
  induction n with
  | zero =>
    intro s s2 h he
    simp only [mineN, Option.some.injEq] at he
    exact he ▸ h
  | succ k ih =>
    intro s s2 h he
    unfold mineN at he
    rcases hm : minePendingTransactions cH0 0 2 s "m" with _ | s3 <;>
      rw [hm] at he
    · exact absurd he (by simp)
    · exact ih s3 s2 (Reachable.mine s 0 2 "m" s3 h hm) he

/-- State `sTen` is reachable: nine mining calls from `B0`. -/
lemma reachable_sTen : Reachable cH0 sTen :=
  mineN_reachable 9 B0 sTen reachable_B0 rfl

/-! ### Claim theorems -/

/-- C4: `is_chain_valid()` returns true if and only if every block at
index `i ≥ 1` (the genesis block is never checked) passes, against its
predecessor, the three checks (a) its stored hash is the hash recomputed
from its own stored fields, (b) its `previous_hash` equals the previous
block's stored hash, and (c) its stored hash satisfies the difficulty
predicate. -/
theorem is_chain_valid_iff_checks
    (cH : Nat → Int → List Transaction → String → Nat → String)
    (s : Blockchain) :
    isChainValid cH s = true ↔
      ∀ i, 1 ≤ i → i < s.chain.length →
        ((s.chain.getD i default).hash =
            calculateHash cH (s.chain.getD i default) ∧
         (s.chain.getD i default).previous_hash =
            (s.chain.getD (i - 1) default).hash ∧
         strStartsWith (s.chain.getD i default).hash difficultyTarget
            = true) :=
  chainCheck_iff cH s.chain

/-- C5: `add_transaction(tx)` returns false and leaves the whole ledger
state unchanged exactly when the sender is not the sentinel `"0"` and
its recorded balance is below the amount; in every other case it appends
the transaction to the pending queue, returns true, and in no case does
it touch any balance. -/
theorem add_transaction_spec (s : Blockchain) (t : Transaction) :
    (addTransaction s t = (s, false) ↔
      (t.«from» ≠ "0" ∧ getBalance s t.«from» < t.amount)) ∧
    (¬ (t.«from» ≠ "0" ∧ getBalance s t.«from» < t.amount) →
      addTransaction s t =
        ({ s with
            pending_transactions := s.pending_transactions ++ [t] }, true)) ∧
    (addTransaction s t).1.wallets = s.wallets := by
  refine ⟨⟨?_, ?_⟩, ?_, ?_⟩
  · intro he
    by_contra hc
    rw [addTransaction, if_neg hc] at he
    exact absurd (congrArg Prod.snd he) (by simp)
  · intro hc
    rw [addTransaction, if_pos hc]
  · intro hc
    rw [addTransaction, if_neg hc]
  · exact (addTransaction_fst s t).2.1

/-- C3: every ledger state reachable from a fresh ledger by any sequence
of `create_wallet`, `add_transaction` and (terminating)
`mine_pending_transactions` calls passes `is_chain_valid`, and for every
index `i ≥ 1` the stored previous-hash link, the hash recomputation and
the difficulty predicate all hold. -/
theorem reachable_is_chain_valid
    (cH : Nat → Int → List Transaction → String → Nat → String)
    (s : Blockchain) (h : Reachable cH s) :
    isChainValid cH s = true ∧
      ∀ i, 1 ≤ i → i < s.chain.length →
        ((s.chain.getD i default).previous_hash =
            (s.chain.getD (i - 1) default).hash ∧
         (s.chain.getD i default).hash =
            calculateHash cH (s.chain.getD i default) ∧
         strStartsWith (s.chain.getD i default).hash difficultyTarget
            = true) := by
  have hv := (reachable_chain_inv cH s h).2
  refine ⟨hv, ?_⟩
  intro i h1 h2
  have hi := (chainCheck_iff cH s.chain).1 hv i h1 h2
  exact ⟨hi.2.1, hi.1, hi.2.2⟩

/-- Witness for C3 at the concrete two-block reachable state `B1`. -/
theorem reachable_is_chain_valid_witness : isChainValid cH0 B1 = true :=
  (reachable_is_chain_valid cH0 B1 reachable_B1).1

/-- C1: a terminating `mine_pending_transactions(m)` call appends
exactly one block whose index is the chain length before the call, whose
`previous_hash` is the stored hash of the previously last block, and
whose transaction list is the pending queue at call time followed by
exactly one coinbase transaction `{from := "0", to := m, amount :=
current reward}`; afterwards the pending queue is empty. -/
theorem mine_appends_block_spec
    (cH : Nat → Int → List Transaction → String → Nat → String)
    (ts : Int) (fuel : Nat) (s s2 : Blockchain) (m : String)
    (hne : s.chain ≠ []) (hlen : s.chain.length < 2 ^ 32)
    (h : minePendingTransactions cH ts fuel s m = some s2) :
    ∃ b, s2.chain = s.chain ++ [b] ∧ b.index = s.chain.length ∧
      b.previous_hash = (s.chain.getLast hne).hash ∧
      b.transactions = s.pending_transactions ++
        [{ «from» := "0", «to» := m, amount := s.current_mining_reward }] ∧
      s2.pending_transactions = [] := by
  obtain ⟨lb, nb, hl, hb, hs2⟩ := minePending_some cH ts fuel s m s2 h
  obtain ⟨hi, _, htx, hprev, _⟩ := block_new_some cH _ _ _ _ _ _ hb
  have hlb : lb = s.chain.getLast hne := by
    rw [List.getLast?_eq_getLast s.chain hne] at hl
    exact (Option.some.inj hl).symm
  refine ⟨nb, by rw [hs2], ?_, ?_, htx, by rw [hs2]⟩
  · rw [hi, Nat.mod_eq_of_lt hlen]
  · rw [hprev, hlb]

/-- Witness for C1 at the concrete state `B0` (fresh ledger, miner
`"m"`). -/
theorem mine_appends_block_spec_witness :
    B1.pending_transactions = [] ∧ B1.chain.length = B0.chain.length + 1 := by
  obtain ⟨b, h1, -, -, -, h5⟩ :=
    mine_appends_block_spec cH0 0 2 B0 B1 "m" (by decide) (by decide) rfl
  refine ⟨h5, ?_⟩
  rw [h1]
  simp

/-- C2 counterexample: the mining loop increments the nonce before it
computes the first hash, so nonce `0` is never attempted.  Under the
hash oracle `cH0` (every hash is `"0000"`) the genesis block stores
nonce `1` even though nonce `0` already satisfies the difficulty
predicate — refuting the claim that for every `nonce' <` the stored
nonce the hash of `nonce'` fails the predicate (i.e. that the search
starts at `0`). -/
theorem mine_nonce_zero_skipped_cex :
    Block.new cH0 0 [] "0" 0 2 = some G0 ∧ 0 < G0.nonce ∧
      strStartsWith (cH0 0 0 [] "0" 0) difficultyTarget = true :=
  ⟨rfl, by decide, by decide⟩

/-- C2 as amended: mining fixes the timestamp once; the produced block's
hash is the hash of its own fields, satisfies the difficulty predicate,
and its nonce is the first satisfying one found by linear search
starting from `1` (nonce `0` is never attempted).  The bound
`fuel ≤ 2 ^ 32` keeps the `u32` nonce from wrapping. -/
theorem mine_first_nonce_from_one
    (cH : Nat → Int → List Transaction → String → Nat → String)
    (index : Nat) (txs : List Transaction) (prev : String) (ts : Int)
    (fuel : Nat) (b : Block) (hfuel : fuel ≤ 2 ^ 32)
    (h : Block.new cH index txs prev ts fuel = some b) :
    b.timestamp = ts ∧
    b.hash = cH index ts txs prev b.nonce ∧
    strStartsWith b.hash difficultyTarget = true ∧
    1 ≤ b.nonce ∧
    ∀ n, 1 ≤ n → n < b.nonce →
      strStartsWith (cH index ts txs prev n) difficultyTarget = false := by
  obtain ⟨_, hts, _, _, hm⟩ := block_new_some cH index txs prev ts fuel b h
  have hf := mineLoop_first (fun n => cH index ts txs prev n)
    difficultyTarget emp_not_target fuel b.nonce b.hash hfuel hm
  exact ⟨hts, hf.2.1, hf.2.2.1, hf.1, hf.2.2.2⟩

/-- Witness for the amended C2 at the concrete genesis mining run. -/
theorem mine_first_nonce_from_one_witness :
    G0.timestamp = 0 ∧ G0.hash = cH0 0 0 [] "0" G0.nonce ∧
      strStartsWith G0.hash difficultyTarget = true ∧ 1 ≤ G0.nonce := by
  obtain ⟨h1, h2, h3, h4, -⟩ :=
    mine_first_nonce_from_one cH0 0 [] "0" 0 2 G0 (by norm_num) rfl
  exact ⟨h1, h2, h3, h4⟩

/-- C6 counterexample: the state `sC6` is reachable (a sentinel-sender
transaction of amount `1` is admitted by `add_transaction`), and mining
it increases the balance sum by `1` more than the coinbase amount — the
coinbase is not the only net creation of value. -/
theorem mine_sum_cex :
    Reachable cH0 sC6 ∧
    minePendingTransactions cH0 0 2 sC6 "m" = some sC6m ∧
    sumVals sC6m.wallets ≠ sumVals sC6.wallets + sC6.current_mining_reward := by
  refine ⟨Reachable.tx B0 tC6 reachable_B0, rfl, ?_⟩
  obtain ⟨lb, nb, hl, hb, hs2⟩ := minePending_some cH0 0 2 sC6 "m" sC6m rfl
  have hw : sC6m.wallets =
      entryAdd (sC6.pending_transactions.foldl applyTx sC6.wallets) "m"
        sC6.current_mining_reward := by
    rw [hs2]
  have hpend : sC6.pending_transactions = [tC6] := rfl
  have hwal : sC6.wallets = ([] : List (String × ℚ)) := rfl
  have hrew : sC6.current_mining_reward = 100 := rfl
  rw [hw, sumVals_entryAdd, hpend, hrew, hwal]
  simp only [List.foldl_cons, List.foldl_nil]
  rw [sumVals_applyTx]
  have hf : tC6.«from» = "0" := rfl
  have ha : tC6.amount = 1 := rfl
  rw [if_pos hf, ha]
  have h0 : sumVals ([] : List (String × ℚ)) = 0 := rfl
  rw [h0]
  norm_num

/-- C6 as amended: when no pending transaction has the sentinel sender
`"0"`, a terminating `mine_pending_transactions` call increases the sum
of all recorded balances by exactly the coinbase amount (each pending
sentinel-sender transaction would additionally create its own amount). -/
theorem mine_sum_conservation
    (cH : Nat → Int → List Transaction → String → Nat → String)
    (ts : Int) (fuel : Nat) (s s2 : Blockchain) (m : String)
    (hcb : ∀ t ∈ s.pending_transactions, t.«from» ≠ "0")
    (h : minePendingTransactions cH ts fuel s m = some s2) :
    sumVals s2.wallets = sumVals s.wallets + s.current_mining_reward := by
  obtain ⟨lb, nb, hl, hb, hs2⟩ := minePending_some cH ts fuel s m s2 h
  have hw : s2.wallets =
      entryAdd (s.pending_transactions.foldl applyTx s.wallets) m
        s.current_mining_reward := by
    rw [hs2]
  rw [hw, sumVals_entryAdd, sumVals_foldl_applyTx]
  have hz : (s.pending_transactions.map
      fun t => if t.«from» = "0" then t.amount else 0).sum = 0 := by
    apply List.sum_eq_zero
    intro x hx
    rw [List.mem_map] at hx
    obtain ⟨t, ht, hxe⟩ := hx
    rw [← hxe, if_neg (hcb t ht)]
  rw [hz]
  ring

/-- Witness for the amended C6 at the concrete state `B0` (empty pending
queue). -/
theorem mine_sum_conservation_witness :
    sumVals B1.wallets = sumVals B0.wallets + B0.current_mining_reward :=
  mine_sum_conservation cH0 0 2 B0 B1 "m" (by simp [B0]) rfl

/-- C7: the reward is halved by a mining call exactly when the chain
length after appending the new block is a multiple of the halving
interval 10; in every reachable state the current reward is
`100 / 2 ^ (chain length / 10)`, so the coinbase amounts of blocks 10
through 19 are 50 and of blocks 20 through 29 are 25 (the block mined
from a state with chain length `L` is block `L` and carries coinbase
amount equal to the current reward, see C1).  The bound on the chain
length reflects the `as u32` cast in the halving condition. -/
theorem reward_halving_spec
    (cH : Nat → Int → List Transaction → String → Nat → String)
    (s s2 : Blockchain) (ts : Int) (fuel : Nat) (m : String)
    (h : Reachable cH s) (hlen : s.chain.length + 1 < 2 ^ 32)
    (hm : minePendingTransactions cH ts fuel s m = some s2) :
    s2.current_mining_reward =
      (if (s.chain.length + 1) % HALVING_INTERVAL = 0 then
        s.current_mining_reward / 2
      else s.current_mining_reward) ∧
    s.current_mining_reward =
      MINING_REWARD / 2 ^ (s.chain.length / HALVING_INTERVAL) ∧
    (10 ≤ s.chain.length ∧ s.chain.length ≤ 19 →
      s.current_mining_reward = 50) ∧
    (20 ≤ s.chain.length ∧ s.chain.length ≤ 29 →
      s.current_mining_reward = 25) := by
  have hr := reachable_reward cH s h (by omega)
  obtain ⟨lb, nb, hl, hb, hs2⟩ := minePending_some cH ts fuel s m s2 hm
  refine ⟨?_, hr, ?_, ?_⟩
  · have hrew : s2.current_mining_reward =
        if (s.chain.length + 1) % 2 ^ 32 % HALVING_INTERVAL = 0 then
          s.current_mining_reward / 2
        else s.current_mining_reward := by
      rw [hs2]
    rw [hrew, Nat.mod_eq_of_lt hlen]
  · rintro ⟨h1, h2⟩
    rw [hr]
    have hdiv : s.chain.length / HALVING_INTERVAL = 1 := by
      unfold HALVING_INTERVAL
      omega
    rw [hdiv]
    norm_num [MINING_REWARD]
  · rintro ⟨h1, h2⟩
    rw [hr]
    have hdiv : s.chain.length / HALVING_INTERVAL = 2 := by
      unfold HALVING_INTERVAL
      omega
    rw [hdiv]
    norm_num [MINING_REWARD]

/-- Witness for C7 at the concrete reachable state `sTen` (chain length
10, reward already halved to 50 by the mining call that appended block
9). -/
theorem reward_halving_spec_witness :
    sTen.chain.length = 10 ∧ sTen.current_mining_reward = 50 ∧
      sEleven.current_mining_reward = 50 := by
  obtain ⟨hc1, hc2, -, -⟩ :=
    reward_halving_spec cH0 sTen sEleven 0 2 "m" reachable_sTen
      (by decide) rfl
  have hlen : sTen.chain.length = 10 := by decide
  have h50 : sTen.current_mining_reward = 50 := by
    rw [hc2, hlen]
    norm_num [MINING_REWARD, HALVING_INTERVAL]
  refine ⟨hlen, h50, ?_⟩
  rw [hc1, hlen, if_neg (by norm_num [HALVING_INTERVAL])]
  exact h50

/-- C8 counterexample: `create_wallet` performs no freshness check.  In
the reachable state `sC8` the account `"0x0"` (random draw `0`) is
already registered; a second `create_wallet` call whose random `u64` is
again `0` returns `"0x0"`, an identifier previously present in the
balance table — refuting the freshness part of the claim. -/
theorem create_wallet_collision_cex :
    Reachable cH0 sC8 ∧ (createWallet sC8 0).2 = "0x0" ∧
      hmFind sC8.wallets ((createWallet sC8 0).2) = some 0 :=
  ⟨Reachable.wallet B0 0 reachable_B0, rfl, rfl⟩

/-- C8 as amended: every identifier returned by `create_wallet` is the
`"0x"`-prefixed hex rendering of the drawn `u64`, hence distinct from
the coinbase sentinel `"0"`, and is registered with balance zero — but
it may coincide with an already-registered account (no freshness check
is performed; a collision resets that account's balance to zero). -/
theorem create_wallet_spec (s : Blockchain) (r : Nat) :
    (createWallet s r).2 ≠ "0" ∧
    (createWallet s r).2 = "0x" ++ u64ToHex (r % 2 ^ 64) ∧
    hmFind (createWallet s r).1.wallets ((createWallet s r).2) = some 0 := by
  refine ⟨?_, rfl, ?_⟩
  · intro h
    have h2 : ("0x" ++ u64ToHex (r % 2 ^ 64)) = "0" := h
    have hd : ('0' :: 'x' :: (u64ToHex (r % 2 ^ 64)).data) = ['0'] := by
      have h3 := congrArg String.data h2
      rw [String.data_append] at h3
      exact h3
    simp at hd
  · show hmFind (hmInsert s.wallets ("0x" ++ u64ToHex (r % 2 ^ 64)) 0)
      ("0x" ++ u64ToHex (r % 2 ^ 64)) = some 0
    rw [hmFind_hmInsert, if_pos rfl]

/-- C9: a transaction whose sender is the sentinel `"0"` is admitted by
`add_transaction` unconditionally; mining it credits the recipient with
its amount while debiting no account, so the mined block increases the
total balance sum by the amount plus the coinbase reward.  (`hp`
isolates the transaction as the only pending one.) -/
theorem coinbase_sender_spec
    (cH : Nat → Int → List Transaction → String → Nat → String)
    (ts : Int) (fuel : Nat) (s s2 : Blockchain) (m R : String) (a : ℚ)
    (hp : s.pending_transactions = [])
    (hm : minePendingTransactions cH ts fuel
      (addTransaction s { «from» := "0", «to» := R, amount := a }).1 m
        = some s2) :
    (addTransaction s { «from» := "0", «to» := R, amount := a }).2 = true ∧
    sumVals s2.wallets = sumVals s.wallets + a + s.current_mining_reward ∧
    (R ≠ m → getBalance s2 R = getBalance s R + a) ∧
    (∀ x, x ≠ R → x ≠ m → getBalance s2 x = getBalance s x) := by
  have hadd : addTransaction s { «from» := "0", «to» := R, amount := a } =
      ({ s with pending_transactions := s.pending_transactions ++
          [{ «from» := "0", «to» := R, amount := a }] }, true) := by
    rw [addTransaction, if_neg]
    intro hc
    exact hc.1 rfl
  obtain ⟨lb, nb, hl, hb, hs2⟩ := minePending_some cH ts fuel _ m s2 hm
  have hw : s2.wallets =
      entryAdd ((addTransaction s
          { «from» := "0", «to» := R, amount := a }).1.pending_transactions.foldl
          applyTx
          (addTransaction s
            { «from» := "0", «to» := R, amount := a }).1.wallets)
        m (addTransaction s
            { «from» := "0", «to» := R, amount := a }).1.current_mining_reward := by
    rw [hs2]
  rw [hadd] at hw
  simp only [hp, List.nil_append, List.foldl_cons, List.foldl_nil] at hw
  have happ : applyTx s.wallets { «from» := "0", «to» := R, amount := a } =
      entryAdd s.wallets R a := by
    simp [applyTx]
  rw [happ] at hw
  refine ⟨by rw [hadd], ?_, ?_, ?_⟩
  · rw [hw, sumVals_entryAdd, sumVals_entryAdd]
  · intro hRm
    simp only [getBalance, hw]
    rw [hmFind_entryAdd, if_neg (fun he => hRm he.symm),
      hmFind_entryAdd, if_pos rfl]
    simp
  · intro x hxR hxm
    simp only [getBalance, hw]
    rw [hmFind_entryAdd, if_neg (fun he => hxm he.symm),
      hmFind_entryAdd, if_neg (fun he => hxR he.symm)]

/-- Witness for C9 at the concrete state `B0` with recipient `"r"`,
amount `1` and miner `"m"`. -/
theorem coinbase_sender_spec_witness :
    (addTransaction B0 { «from» := "0", «to» := "r", amount := 1 }).2
      = true ∧
    sumVals sC6m.wallets = sumVals B0.wallets + 1 + B0.current_mining_reward ∧
    getBalance sC6m "r" = getBalance B0 "r" + 1 := by
  obtain ⟨h1, h2, h3, -⟩ :=
    coinbase_sender_spec cH0 0 2 B0 sC6m "m" "r" 1 rfl rfl
  exact ⟨h1, h2, h3 (by decide)⟩

/-- C10: `add_transaction` imposes no lower bound on the amount: a
negative-amount transaction from any non-sentinel sender whose balance
is not below the (negative) amount is admitted, and mining it moves
value from the recipient to the sender: the sender's balance increases
by `-a` and the recipient's decreases by `-a`. -/
theorem negative_amount_spec
    (cH : Nat → Int → List Transaction → String → Nat → String)
    (ts : Int) (fuel : Nat) (s s2 : Blockchain) (m A B : String) (a : ℚ)
    (hA : A ≠ "0") (_hneg : a < 0) (hbal : ¬ getBalance s A < a)
    (hp : s.pending_transactions = []) (hAB : A ≠ B) (hmA : m ≠ A)
    (hmB : m ≠ B)
    (hm : minePendingTransactions cH ts fuel
      (addTransaction s { «from» := A, «to» := B, amount := a }).1 m
        = some s2) :
    (addTransaction s { «from» := A, «to» := B, amount := a }).2 = true ∧
    getBalance s2 A = getBalance s A - a ∧
    getBalance s2 B = getBalance s B + a := by
  have hadd : addTransaction s { «from» := A, «to» := B, amount := a } =
      ({ s with pending_transactions := s.pending_transactions ++
          [{ «from» := A, «to» := B, amount := a }] }, true) := by
    rw [addTransaction, if_neg]
    intro hc
    exact hbal hc.2
  obtain ⟨lb, nb, hl, hb, hs2⟩ := minePending_some cH ts fuel _ m s2 hm
  have hw : s2.wallets =
      entryAdd ((addTransaction s
          { «from» := A, «to» := B, amount := a }).1.pending_transactions.foldl
          applyTx
          (addTransaction s
            { «from» := A, «to» := B, amount := a }).1.wallets)
        m (addTransaction s
            { «from» := A, «to» := B, amount := a }).1.current_mining_reward := by
    rw [hs2]
  rw [hadd] at hw
  simp only [hp, List.nil_append, List.foldl_cons, List.foldl_nil] at hw
  have happ : applyTx s.wallets { «from» := A, «to» := B, amount := a } =
      entryAdd (entryAdd s.wallets A (-a)) B a := by
    simp [applyTx, hA]
  rw [happ] at hw
  refine ⟨by rw [hadd], ?_, ?_⟩
  · simp only [getBalance, hw]
    rw [hmFind_entryAdd, if_neg hmA,
      hmFind_entryAdd, if_neg (fun he => hAB he.symm),
      hmFind_entryAdd, if_pos rfl]
    simp only [Option.getD_some]
    ring
  · simp only [getBalance, hw]
    rw [hmFind_entryAdd, if_neg hmB,
      hmFind_entryAdd, if_pos rfl]
    simp only [Option.getD_some]
    rw [hmFind_entryAdd, if_neg hAB]

/-- The concrete mining run for the C10 witness terminates in `sPm`. -/
lemma mine_tP :
    minePendingTransactions cH0 0 2 (addTransaction B0 tP).1 "m"
      = some sPm := rfl

/-- Witness for C10 at the concrete state `B0` with sender `"a"`
(balance 0), recipient `"b"`, amount `-1` and miner `"m"`. -/
theorem negative_amount_spec_witness :
    (addTransaction B0 tP).2 = true ∧
    getBalance sPm "a" = 1 ∧ getBalance sPm "b" = -1 := by
  obtain ⟨h1, h2, h3⟩ :=
    negative_amount_spec cH0 0 2 B0 sPm "m" "a" "b" (-1)
      (by decide) (by norm_num) (by norm_num [getBalance, B0, hmFind])
      rfl (by decide) (by decide) (by decide) mine_tP
  refine ⟨h1, ?_, ?_⟩
  · rw [h2]
    norm_num [getBalance, B0, hmFind]
  · rw [h3]
    norm_num [getBalance, B0, hmFind]
